import Mathlib

/-!
Verification of the columnar scan readers (ORC / Parquet) of this repository:
row-group statistics pruning, page-index pruning, lazy-read planning,
dictionary-based predicate rewriting, delete-row filtering, decimal rescaling,
cooperative cancellation and empty-file handling.

Each definition is a shallow embedding of the corresponding C++ function in
`be/src/vec/exec/format/parquet/vparquet_reader.cpp`,
`be/src/vec/exec/format/orc/vorc_reader.cpp` and
`be/src/vec/exec/format/orc/vorc_reader.h`; external collaborators
(expression evaluator, byte-range reader, footer parser) are abstracted as
parameters, matching the interfaces they are consumed through.
-/

namespace DorisScan

/-! ## Row ranges and the Parquet page-index pruning (`_process_page_index`) -/

/-- Half-open row range `[firstRow, lastRow)` relative to a row group,
mirroring `RowRange {first_row, last_row}`. -/
structure RowRange where
  firstRow : Nat
  lastRow : Nat
deriving DecidableEq

/-- The comparison used at `vparquet_reader.cpp` when sorting skipped row
ranges: `std::tie(lhs.first_row, lhs.last_row) < std::tie(rhs.first_row,
rhs.last_row)`, made reflexive so it can serve as a sorting relation. -/
def rrLe (a b : RowRange) : Prop :=
  a.firstRow < b.firstRow ∨ (a.firstRow = b.firstRow ∧ a.lastRow ≤ b.lastRow)

instance : DecidableRel rrLe := fun a b => by
  unfold rrLe; infer_instance

instance : IsTotal RowRange rrLe := by
  constructor
  intro a b
  rcases Nat.lt_trichotomy a.firstRow b.firstRow with h | h | h
  · exact Or.inl (Or.inl h)
  · rcases Nat.le_total a.lastRow b.lastRow with h2 | h2
    · exact Or.inl (Or.inr ⟨h, h2⟩)
    · exact Or.inr (Or.inr ⟨h.symm, h2⟩)
  · exact Or.inr (Or.inl h)

instance : IsTrans RowRange rrLe := by
  constructor
  intro a b c hab hbc
  rcases hab with h1 | ⟨h1, h1'⟩ <;> rcases hbc with h2 | ⟨h2, h2'⟩
  · exact Or.inl (h1.trans h2)
  · exact Or.inl (h2 ▸ h1)
  · exact Or.inl (h1 ▸ h2)
  · exact Or.inr ⟨h1.trans h2, h1'.trans h2'⟩

/-- One step of the skip-range merge loop of `_process_page_index`
(`vparquet_reader.cpp`): state is `(candidate_row_ranges, skip_end)`;
for each sorted skipped range, either extend the current merged skip block
or emit the candidate gap `[skip_end, first_row)` before it. -/
def mergeStep (st : List RowRange × Nat) (rng : RowRange) : List RowRange × Nat :=
  if rng.firstRow ≤ st.2 then
    (st.1, if st.2 < rng.lastRow then rng.lastRow else st.2)
  else
    (st.1 ++ [⟨st.2, rng.firstRow⟩], rng.lastRow)

/-- Core of `_process_page_index`: from the collected skipped row ranges of all
predicate columns, compute `candidate_row_ranges`.  Empty collection means
`read_whole_row_group` (a single whole-group range); otherwise the skipped
ranges are sorted, merged, and complemented against `[0, num_rows)`. -/
def processPageIndexCore (numRows : Nat) (skippedRowRanges : List RowRange) : List RowRange :=
  if skippedRowRanges.isEmpty then [⟨0, numRows⟩]
  else
    let sorted := skippedRowRanges.insertionSort rrLe
    let st := sorted.foldl mergeStep ([], 0)
    if st.2 ≠ numRows then st.1 ++ [⟨st.2, numRows⟩] else st.1

/-- Dispatcher of `_process_page_index`: when min/max filtering is disabled,
a complex type is read, there are no conjuncts or value ranges, or the page
index is disabled/absent, the whole row group is the single candidate range;
otherwise the per-column skipped ranges are merged and complemented. -/
def processPageIndex (enableFilterByMinMax hasComplexType conjunctsEmpty valueRangesEmpty
    enablePageIndex hasPageIndex : Bool) (numRows : Nat)
    (skippedPerColumn : List (List RowRange)) : List RowRange :=
  if !enableFilterByMinMax || hasComplexType || conjunctsEmpty || valueRangesEmpty then
    [⟨0, numRows⟩]
  else if !enablePageIndex || !hasPageIndex then
    [⟨0, numRows⟩]
  else
    processPageIndexCore numRows skippedPerColumn.flatten

/-- Row `r` lies in the half-open range `rng`. -/
def inRowRange (r : Nat) (rng : RowRange) : Prop :=
  rng.firstRow ≤ r ∧ r < rng.lastRow

instance (r : Nat) (rng : RowRange) : Decidable (inRowRange r rng) := by
  unfold inRowRange; infer_instance

/-- Row `r` lies in some range of the list. -/
def inAnyRange (r : Nat) (l : List RowRange) : Prop :=
  ∃ rng ∈ l, inRowRange r rng

instance (r : Nat) (l : List RowRange) : Decidable (inAnyRange r l) := by
  unfold inAnyRange; infer_instance

/-- Candidate-set membership as the SPEC describes it (`spec.md` §4.2): the
union over all predicate columns of that column's kept (non-skipped) rows —
"if any page is not skippable for one predicate column, its rows remain
candidates".  Written from the spec's words, to be compared against the
implementation `processPageIndex`. -/
def specUnionKeptCandidate (numRows : Nat) (skippedPerColumn : List (List RowRange))
    (r : Nat) : Prop :=
  r < numRows ∧ ∃ col ∈ skippedPerColumn, ∀ rng ∈ col, ¬ inRowRange r rng

instance (numRows : Nat) (cols : List (List RowRange)) (r : Nat) :
    Decidable (specUnionKeptCandidate numRows cols r) := by
  unfold specUnionKeptCandidate; infer_instance

/-! ## Parquet row-group statistics pruning (`_process_column_stat_filter`) -/

/-- The statistics-related fields of one parquet column chunk that
`_process_column_stat_filter` inspects: presence flags of
`statistics.min/max/min_value/max_value/null_count`, the null count, and
`meta_data.num_values`. -/
structure ParquetStatMeta where
  hasMin : Bool
  hasMax : Bool
  hasMinValue : Bool
  hasMaxValue : Bool
  hasNullCount : Bool
  nullCount : Int
  numValues : Int
deriving DecidableEq

/-- `is_all_null` of `_process_column_stat_filter`:
`statistic.__isset.null_count && statistic.null_count == meta_data.num_values`. -/
def isAllNull (m : ParquetStatMeta) : Bool :=
  m.hasNullCount && (m.nullCount == m.numValues)

/-- `is_set_min_max` of `_process_column_stat_filter`:
`(max && min) || (max_value && min_value)` presence. -/
def isSetMinMax (m : ParquetStatMeta) : Bool :=
  (m.hasMax && m.hasMin) || (m.hasMaxValue && m.hasMinValue)

/-- Environment of `_process_column_stat_filter`: schema-change node callbacks,
value-range lookup, schema lookup, per-column statistics, and the verdict of
the external `ParquetPredicate::filter_by_stats` (abstracted, including its
`ignore_min_max_stats` / corrupt-statistics preprocessing, since
`parquet_pred_cmp.h` is an external collaborator here). -/
structure StatFilterEnv where
  childrenColumnExists : String → Bool
  childrenFileColumnName : String → String
  hasValueRange : String → Bool
  physicalColumnIndex : String → Int
  statMetaOf : String → ParquetStatMeta
  filterByStats : String → Bool

/-- The per-column loop of `_process_column_stat_filter`
(`vparquet_reader.cpp:937-1015`), iterating `_read_table_columns`.  Note the
guard at line 938: `if (_table_info_node_ptr->children_column_exists(col))
continue;` — a column that EXISTS is skipped.  `filter_by_stats`'s verdict is
written to `*filter_group` and the loop breaks on `true`. -/
def processColumnStatFilterLoop (env : StatFilterEnv) : List String → Bool
  | [] => false
  | c :: rest =>
    if env.childrenColumnExists c then
      processColumnStatFilterLoop env rest
    else if !env.hasValueRange c then
      processColumnStatFilterLoop env rest
    else if env.physicalColumnIndex (env.childrenFileColumnName c) < 0 then
      processColumnStatFilterLoop env rest
    else
      let m := env.statMetaOf c
      if !isSetMinMax m && !isAllNull m then
        processColumnStatFilterLoop env rest
      else if env.filterByStats c then true
      else processColumnStatFilterLoop env rest

/-- `_process_column_stat_filter`: returns the final value of `*filter_group`
(initially `false`); returns immediately when min/max filtering is disabled or
no value ranges exist. -/
def processColumnStatFilter (enableFilterByMinMax hasValueRanges : Bool)
    (env : StatFilterEnv) (readTableColumns : List String) : Bool :=
  if !enableFilterByMinMax || !hasValueRanges then false
  else processColumnStatFilterLoop env readTableColumns

/-- The read-column split of `ParquetReader::init_reader`
(`vparquet_reader.cpp:334-350`): `required_file_columns` maps file-column name
to table-column name for every requested column that exists in the table-info
node; `_read_table_columns` collects, in schema order, the table columns whose
file column appears in the schema. -/
def initReaderReadTableColumns (allColumnNames : List String)
    (childrenColumnExists : String → Bool) (childrenFileColumnName : String → String)
    (schemaColumns : List String) : List String :=
  let requiredFileColumns :=
    (allColumnNames.filter childrenColumnExists).map (fun c => (childrenFileColumnName c, c))
  schemaColumns.filterMap
    (fun n => (requiredFileColumns.find? (fun p => p.1 == n)).map Prod.snd)

/-! ## ORC decimal rescaling (`_init_decimal_converter`,
`_decode_explicit_decimal_column`) -/

/-- `DecimalScaleParams::ScaleType`. -/
inductive DecimalScaleType
  | notInit
  | scaleUp
  | scaleDown
  | noScale
deriving DecidableEq

/-- `DecimalScaleParams {scale_type, scale_factor}`. -/
structure DecimalScaleParams where
  scaleType : DecimalScaleType
  scaleFactor : Int
deriving DecidableEq

/-- `OrcReader::_init_decimal_converter` (`vorc_reader.h:370-393`): computed
once per chunk; `SCALE_UP` with factor `10^(dest-orc)` when the requested
scale exceeds the file scale, `SCALE_DOWN` with factor `10^(orc-dest)` when it
is below, else `NO_SCALE`. -/
def initDecimalConverter (destScale orcDecimalScale : Nat) : DecimalScaleParams :=
  if destScale > orcDecimalScale then
    ⟨.scaleUp, (10 : Int) ^ (destScale - orcDecimalScale)⟩
  else if destScale < orcDecimalScale then
    ⟨.scaleDown, (10 : Int) ^ (orcDecimalScale - destScale)⟩
  else
    ⟨.noScale, 1⟩

/-- Per-value mapping of `_decode_explicit_decimal_column`
(`vorc_reader.h:421-468`): `value *= scale_factor` on `SCALE_UP`,
`value /= scale_factor` on `SCALE_DOWN` (C++ `int128_t` division truncates
toward zero, hence `Int.tdiv`), identity otherwise. -/
def decodeDecimalValue (p : DecimalScaleParams) (v : Int) : Int :=
  match p.scaleType with
  | .scaleUp => v * p.scaleFactor
  | .scaleDown => v.tdiv p.scaleFactor
  | _ => v

/-- Whole-chunk decimal decode: the scale parameters are computed once
(`_decimal_scale_params` cache) and every value is mapped by the single
branch selected by `scale_type`. -/
def decodeDecimalColumn (destScale orcScale : Nat) (values : List Int) : List Int :=
  let p := initDecimalConverter destScale orcScale
  values.map (decodeDecimalValue p)

/-- The SPEC's requirement (P5): a value of file scale S read at requested
scale S' reproduces `round(original_value, S')` — i.e. exact rescale upward,
and rounding (half away from zero) of the dropped digits downward.  Written
from the spec's words, to be compared against `decodeDecimalValue`. -/
def specRoundDecimal (orcScale destScale : Nat) (v : Int) : Int :=
  if orcScale ≤ destScale then v * (10 : Int) ^ (destScale - orcScale)
  else
    let f : Int := (10 : Int) ^ (orcScale - destScale)
    if 0 ≤ v then (2 * v + f) / (2 * f) else -((2 * (-v) + f) / (2 * f))

/-! ## Lazy-read planning (`set_fill_columns`, Parquet and ORC) -/

/-- The relevant fields of `LazyReadContext` populated by `set_fill_columns`
(partition/missing column maps are carried as their key lists). -/
structure LazyReadContext where
  allReadColumns : List String
  predicateColumns : List String
  lazyReadColumns : List String
  partitionColumns : List String
  predicatePartitionColumns : List String
  missingColumns : List String
  predicateMissingColumns : List String
  canLazyRead : Bool
deriving DecidableEq

/-- The read-column loop of `ParquetReader::set_fill_columns`
(`vparquet_reader.cpp:404-423`): every read table column is appended to
`all_read_columns`; only when the predicate-column map is non-empty is it
routed to `predicate_columns` or `lazy_read_columns`.  Returns
`(all_read_columns, predicate_columns, lazy_read_columns)`. -/
def fillReadColumns (predicateCols : List String) :
    List String → List String × List String × List String
  | [] => ([], [], [])
  | c :: rest =>
    let (allR, pred, lazy) := fillReadColumns predicateCols rest
    if predicateCols.isEmpty then (c :: allR, pred, lazy)
    else if predicateCols.contains c then (c :: allR, c :: pred, lazy)
    else (c :: allR, pred, c :: lazy)

/-- `ParquetReader::set_fill_columns` (`vparquet_reader.cpp:357-472`):
`predicateCols` is the set of column names collected by `visit_slot` from the
conjuncts; partition and missing columns are split against it; lazy mode is
enabled iff lazy materialization is on and both the predicate and lazy lists
are non-empty; when lazy mode is off, predicate partition/missing columns are
merged back into the plain partition/missing maps. -/
def parquetSetFillColumns (enableLazyMat : Bool)
    (readTableColumns predicateCols partitionCols missingCols : List String) :
    LazyReadContext :=
  let (allR, pred, lazy) := fillReadColumns predicateCols readTableColumns
  let predPartition := partitionCols.filter (fun c => predicateCols.contains c)
  let partition0 := partitionCols.filter (fun c => !predicateCols.contains c)
  let predMissing := missingCols.filter (fun c => predicateCols.contains c)
  let missing0 := missingCols.filter (fun c => !predicateCols.contains c)
  let canLazy := enableLazyMat && !pred.isEmpty && !lazy.isEmpty
  { allReadColumns := allR
    predicateColumns := pred
    lazyReadColumns := lazy
    partitionColumns := if canLazy then partition0 else partition0 ++ predPartition
    predicatePartitionColumns := predPartition
    missingColumns := if canLazy then missing0 else missing0 ++ predMissing
    predicateMissingColumns := predMissing
    canLazyRead := canLazy }

/-- The read-column loop of `OrcReader::set_fill_columns`
(`vorc_reader.cpp:1000-1020`): as in the Parquet reader, except that under
ACID mode the transactional-hive pseudo columns are excluded from the lazy
list. -/
def orcFillReadColumns (predicateCols : List String) (acidMode : Bool)
    (acidRowColumns : List String) :
    List String → List String × List String × List String
  | [] => ([], [], [])
  | c :: rest =>
    let (allR, pred, lazy) := orcFillReadColumns predicateCols acidMode acidRowColumns rest
    if predicateCols.isEmpty then (c :: allR, pred, lazy)
    else if predicateCols.contains c then (c :: allR, c :: pred, lazy)
    else if !acidMode || !acidRowColumns.contains c then (c :: allR, pred, c :: lazy)
    else (c :: allR, pred, lazy)

/-- `OrcReader::set_fill_columns` (`vorc_reader.cpp:950-1128`): the
predicate-column set is what `visit_slot` collects over the conjuncts
(modelled as the flattened per-conjunct slot lists); after the same
lazy-decision as the Parquet reader, `can_lazy_read` is forced to `false`
when the conjunct list is empty (lines 1055-1056); when lazy mode is off the
predicate partition/missing columns are merged back (lines 1121-1127). -/
def orcSetFillColumns (enableLazyMat : Bool) (conjunctSlots : List (List String))
    (acidMode : Bool) (acidRowColumns : List String)
    (readTableColumns partitionCols missingCols : List String) : LazyReadContext :=
  let predicateCols := conjunctSlots.flatten
  let (allR, pred, lazy) := orcFillReadColumns predicateCols acidMode acidRowColumns
    readTableColumns
  let predPartition := partitionCols.filter (fun c => predicateCols.contains c)
  let partition0 := partitionCols.filter (fun c => !predicateCols.contains c)
  let predMissing := missingCols.filter (fun c => predicateCols.contains c)
  let missing0 := missingCols.filter (fun c => !predicateCols.contains c)
  let canLazy0 := enableLazyMat && !pred.isEmpty && !lazy.isEmpty
  let canLazy := if conjunctSlots.isEmpty then false else canLazy0
  { allReadColumns := allR
    predicateColumns := pred
    lazyReadColumns := lazy
    partitionColumns := if canLazy then partition0 else partition0 ++ predPartition
    predicatePartitionColumns := predPartition
    missingColumns := if canLazy then missing0 else missing0 ++ predMissing
    predicateMissingColumns := predMissing
    canLazyRead := canLazy }

/-! ## ORC dictionary filtering (`on_string_dicts_loaded`,
`_rewrite_dict_conjuncts`) -/

/-- The shape of the conjunct produced by `_rewrite_dict_conjuncts`
(`vorc_reader.cpp:2469-2552`): an integer equality against the single
surviving dictionary code, or an integer `IN` membership over the surviving
code list. -/
inductive RewrittenDictPredicate
  | eqCode (code : Nat)
  | inCodeList (codes : List Nat)
deriving DecidableEq

/-- Outcome of dictionary filtering for one stripe. -/
inductive DictFilterOutcome
  | stripeFiltered
  | rewritten (p : RewrittenDictPredicate)
deriving DecidableEq

/-- The surviving dictionary codes (`vorc_reader.cpp:2445-2450`): the indices
of the dictionary values kept by the conjunct evaluation. -/
def survivingDictCodes (dictValues : List String) (evalConjuncts : String → Bool) :
    List Nat :=
  (((dictValues.map evalConjuncts).enum).filter (fun p => p.2)).map (fun p => p.1)

/-- Core of `OrcReader::on_string_dicts_loaded` for one dictionary-encoded
predicate column (`vorc_reader.cpp:2361-2464`): the dictionary values are
decoded once and the column's conjuncts are executed against them
(`VExprContext::execute_conjuncts` is the external evaluator; per its
interface, `can_filter_all` holds exactly when no dictionary value survives).
If everything is filtered the stripe is skipped outright; a single surviving
code is rewritten to an equality predicate, several to a membership
predicate. -/
def onStringDictsLoaded (dictValues : List String) (evalConjuncts : String → Bool) :
    DictFilterOutcome :=
  let resultFilter := dictValues.map evalConjuncts
  let canFilterAll := resultFilter.all (fun b => b == false)
  if canFilterAll then .stripeFiltered
  else
    let dictCodes := survivingDictCodes dictValues evalConjuncts
    if dictCodes.length == 1 then .rewritten (.eqCode (dictCodes.headD 0))
    else .rewritten (.inCodeList dictCodes)

/-! ## Delete-row filtering (`_execute_filter_position_delete_rowids`,
`_build_delete_row_filter`) -/

/-- The window `[l, r)` of `_execute_filter_position_delete_rowids`
(`vorc_reader.cpp:2844-2847`): `std::lower_bound` for `start` and
`std::upper_bound` for `start + nums - 1` on the ordered row-id list. -/
def deleteWindow (orderedRowIds : List Nat) (start nums : Nat) : List Nat :=
  (orderedRowIds.dropWhile (fun r => decide (r < start))).takeWhile
    (fun r => decide (r ≤ start + nums - 1))

/-- `OrcReader::_execute_filter_position_delete_rowids`
(`vorc_reader.cpp:2838-2851`): clear the filter bit at `rowid - start` for
every ordered delete row id falling inside the batch window. -/
def executeFilterPositionDeleteRowids (orderedRowIds : List Nat) (start nums : Nat)
    (filter : List Bool) : List Bool :=
  (deleteWindow orderedRowIds start nums).foldl (fun f r => f.set (r - start) false) filter

/-- `TransactionalHiveReader::AcidRowID`: the `(original_transaction,
bucket, row_id)` triple. -/
structure AcidRowID where
  originalTransaction : Int
  bucket : Int
  rowId : Int
deriving DecidableEq

/-- The clearing pass of `OrcReader::_build_delete_row_filter`
(`vorc_reader.cpp:2139-2149`), applied to an arbitrary incoming filter: for
each row, probe the delete triple-set and clear the bit on a hit. -/
def clearAcidDeletes (deleteRows : List AcidRowID) (rowKeys : List AcidRowID)
    (filter : List Bool) : List Bool :=
  (List.range rowKeys.length).foldl
    (fun f i =>
      if deleteRows.contains (rowKeys.getD i ⟨0, 0, 0⟩) then f.set i false else f)
    filter

/-- `OrcReader::_build_delete_row_filter`: fresh filter of all ones, then the
clearing pass. -/
def buildDeleteRowFilter (deleteRows : List AcidRowID) (rowKeys : List AcidRowID) :
    List Bool :=
  clearAcidDeletes deleteRows rowKeys (List.replicate rowKeys.length true)

/-! ## Cancellation and next-batch control flow (`get_next_block_impl`) -/

/-- Status outcomes relevant to the reader control flow. -/
inductive StatusCode
  | ok
  | endOfFile
  | notFound
  | internalError
deriving DecidableEq

/-- Result of one `get_next_block_impl` call: returned status, `*read_rows`,
`*eof`, and the row count left in the output block. -/
structure NextBlockResult where
  status : StatusCode
  readRows : Nat
  eof : Bool
  blockRows : Nat
deriving DecidableEq

/-- `ORCFileInputStream::read` (`vorc_reader.cpp:118-141`): the blocking read
checks the shared stop flag before each chunk and raises the distinguished
`ParseError("stop")` instead of returning data. -/
def orcFileInputStreamRead (shouldStop readOk : Bool) : Except String Unit :=
  if shouldStop then .error "stop"
  else if readOk then .ok () else .error "read failed"

/-- Control-flow skeleton of `OrcReader::get_next_block_impl`
(`vorc_reader.cpp:1867-2107`).  `stopAtEntry` is the stop flag observed by the
entry check; `stopDuringRead` means the blocking read inside
`nextBatch` observed the flag and threw `"stop"` (caught at lines 1914-1921 /
1984-1991, clearing the block).  Decode and filtering of the normal path are
abstracted into `blockRowsAfterFill` and `postFilterRows`. -/
def orcGetNextBlockImpl (stopAtEntry countAgg : Bool) (remainingRows batchSize : Nat)
    (seekOk canLazyRead stopDuringRead : Bool) (batchRows blockRowsAfterFill
    postFilterRows : Nat) : NextBlockResult :=
  if stopAtEntry then ⟨.ok, 0, true, 0⟩
  else if countAgg then
    let rows := min remainingRows batchSize
    ⟨.ok, rows, remainingRows - rows == 0, rows⟩
  else if !seekOk then ⟨.ok, 0, true, 0⟩
  else if canLazyRead then
    if stopDuringRead then ⟨.ok, 0, true, 0⟩
    else if batchRows == 0 then ⟨.ok, 0, true, 0⟩
    else if blockRowsAfterFill == 0 then ⟨.ok, 0, true, 0⟩
    else ⟨.ok, postFilterRows, false, postFilterRows⟩
  else
    if stopDuringRead then ⟨.ok, 0, true, 0⟩
    else if batchRows == 0 then ⟨.ok, 0, true, 0⟩
    else ⟨.ok, postFilterRows, false, postFilterRows⟩

/-! ## Empty-file handling (`_create_file_reader`, `_open_file`,
`init_reader`) -/

/-- Outcome of the orc `createReader` call inside the `try` block of
`OrcReader::_create_file_reader`. -/
inductive OrcCreateEvent
  | success
  | throwStop
  | throwNoSuchFile
  | throwOther
deriving DecidableEq

/-- `OrcReader::_create_file_reader` (`vorc_reader.cpp:269-311`): a zero-length
file yields `EndOfFile` before the orc reader is even constructed; the stop
exception maps to `EndOfFile`, missing-file messages to `NotFound`, anything
else to `InternalError`. -/
def orcCreateFileReader (readerExists : Bool) (fileLength : Nat)
    (ev : OrcCreateEvent) : StatusCode :=
  if readerExists then .ok
  else if fileLength == 0 then .endOfFile
  else
    match ev with
    | .success => .ok
    | .throwStop => .endOfFile
    | .throwNoSuchFile => .notFound
    | .throwOther => .internalError

/-- The footer size check of `ParquetReader::_open_file`
(`vparquet_reader.cpp:226-232`): a file no larger than the 4-byte magic
number (`PAR1`) is treated as an empty parquet file and yields `EndOfFile`. -/
def parquetOpenFileFooterCheck (shouldStop : Bool) (fileSize : Nat) : StatusCode :=
  if shouldStop then .endOfFile
  else if fileSize ≤ 4 then .endOfFile
  else .ok

/-- The row-group count check of `ParquetReader::init_reader`
(`vparquet_reader.cpp:327-330`): a parquet file with zero row groups yields
`EndOfFile`. -/
def parquetInitReaderGroupCheck (totalGroups : Nat) : StatusCode :=
  if totalGroups == 0 then .endOfFile else .ok

/-- Helper: clear the filter bit at each listed position. Both delete-filter
loops reduce to this shape. -/
def setFalseFold (idxs : List Nat) (filter : List Bool) : List Bool :=
  idxs.foldl (fun f i => f.set i false) filter

/-! # Theorems -/

/-! ## Helper lemmas -/

theorem setFalseFold_cons (i : Nat) (t : List Nat) (f : List Bool) :
    setFalseFold (i :: t) f = setFalseFold t (f.set i false) := rfl

theorem setFalseFold_length (idxs : List Nat) (f : List Bool) :
    (setFalseFold idxs f).length = f.length := by
  induction idxs generalizing f with
  | nil => rfl
  | cons i t ih => rw [setFalseFold_cons, ih, List.length_set]

theorem setFalseFold_getElem? (idxs : List Nat) (f : List Bool) (n : Nat) :
    (setFalseFold idxs f)[n]? =
      if n ∈ idxs ∧ n < f.length then some false else f[n]? := by
  induction idxs generalizing f with
  | nil => simp [setFalseFold]
  | cons i t ih =>
    rw [setFalseFold_cons, ih, List.length_set]
    by_cases hni : n = i
    · subst hni
      by_cases hlen : n < f.length
      · simp [hlen, List.getElem?_set_self hlen]
      · have hset : f.set n false = f := List.set_eq_of_length_le (Nat.le_of_not_lt hlen)
        simp [hlen, hset]
    · have hset : (f.set i false)[n]? = f[n]? := List.getElem?_set_ne (Ne.symm hni)
      rw [hset]
      by_cases hnt : n ∈ t
      · simp [hnt, List.mem_cons, hni]
      · simp [hnt, List.mem_cons, hni]

theorem setFalseFold_idem (idxs : List Nat) (f : List Bool) :
    setFalseFold idxs (setFalseFold idxs f) = setFalseFold idxs f := by
  apply List.ext_getElem?
  intro n
  rw [setFalseFold_getElem?, setFalseFold_length, setFalseFold_getElem?]
  by_cases h : n ∈ idxs ∧ n < f.length
  · simp [h]
  · simp [h]

theorem executeFilterPositionDeleteRowids_eq_setFalseFold (ids : List Nat)
    (start nums : Nat) (f : List Bool) :
    executeFilterPositionDeleteRowids ids start nums f =
      setFalseFold ((deleteWindow ids start nums).map (fun r => r - start)) f := by
  unfold executeFilterPositionDeleteRowids setFalseFold
  rw [List.foldl_map]

theorem clearAcidDeletes_eq_setFalseFold (d k : List AcidRowID) (f : List Bool) :
    clearAcidDeletes d k f =
      setFalseFold
        ((List.range k.length).filter (fun i => d.contains (k.getD i ⟨0, 0, 0⟩))) f := by
  unfold clearAcidDeletes setFalseFold
  generalize List.range k.length = idxs
  induction idxs generalizing f with
  | nil => rfl
  | cons i t ih =>
    rw [List.foldl_cons, List.filter_cons]
    by_cases h : d.contains (k.getD i ⟨0, 0, 0⟩)
    · simp only [h, if_pos, List.foldl_cons]
      exact ih (f.set i false)
    · simp only [h, Bool.false_eq_true, if_neg, not_false_iff]
      exact ih f

theorem mem_dropWhile_lt_of_sorted (l : List Nat) (hs : l.Sorted (· ≤ ·)) (lo x : Nat) :
    x ∈ l.dropWhile (fun r => decide (r < lo)) ↔ x ∈ l ∧ lo ≤ x := by
  induction l with
  | nil => simp
  | cons a t ih =>
    rw [List.sorted_cons] at hs
    by_cases ha : a < lo
    · rw [List.dropWhile_cons, if_pos (by simpa using ha), ih hs.2]
      simp only [List.mem_cons]
      constructor
      · rintro ⟨hx, hlo⟩
        exact ⟨Or.inr hx, hlo⟩
      · rintro ⟨hx | hx, hlo⟩
        · omega
        · exact ⟨hx, hlo⟩
    · rw [List.dropWhile_cons, if_neg (by simpa using ha)]
      simp only [List.mem_cons]
      constructor
      · rintro (rfl | hx)
        · exact ⟨Or.inl rfl, Nat.le_of_not_lt ha⟩
        · exact ⟨Or.inr hx, Nat.le_trans (Nat.le_of_not_lt ha) (hs.1 x hx)⟩
      · rintro ⟨hx, _⟩
        exact hx

theorem mem_takeWhile_le_of_sorted (l : List Nat) (hs : l.Sorted (· ≤ ·)) (hi x : Nat) :
    x ∈ l.takeWhile (fun r => decide (r ≤ hi)) ↔ x ∈ l ∧ x ≤ hi := by
  induction l with
  | nil => simp
  | cons a t ih =>
    rw [List.sorted_cons] at hs
    by_cases ha : a ≤ hi
    · rw [List.takeWhile_cons, if_pos (by simpa using ha)]
      simp only [List.mem_cons, ih hs.2]
      constructor
      · rintro (rfl | ⟨hx, hxhi⟩)
        · exact ⟨Or.inl rfl, ha⟩
        · exact ⟨Or.inr hx, hxhi⟩
      · rintro ⟨rfl | hx, hxhi⟩
        · exact Or.inl rfl
        · exact Or.inr ⟨hx, hxhi⟩
    · rw [List.takeWhile_cons, if_neg (by simpa using ha)]
      simp only [List.not_mem_nil, false_iff, List.mem_cons, not_and]
      rintro (rfl | hx)
      · intro h; exact ha h
      · intro h
        exact ha (Nat.le_trans (hs.1 x hx) h)

theorem mem_deleteWindow_iff (ids : List Nat) (hs : ids.Sorted (· ≤ ·))
    (start nums x : Nat) :
    x ∈ deleteWindow ids start nums ↔
      x ∈ ids ∧ start ≤ x ∧ x ≤ start + nums - 1 := by
  unfold deleteWindow
  have hdrop : (ids.dropWhile (fun r => decide (r < start))).Sorted (· ≤ ·) :=
    hs.sublist (List.dropWhile_sublist _)
  rw [mem_takeWhile_le_of_sorted _ hdrop, mem_dropWhile_lt_of_sorted _ hs]
  tauto

theorem mem_initReaderReadTableColumns {allColumnNames : List String}
    {ce : String → Bool} {fn : String → String} {schemaColumns : List String}
    {c : String} (h : c ∈ initReaderReadTableColumns allColumnNames ce fn schemaColumns) :
    ce c = true := by
  unfold initReaderReadTableColumns at h
  rw [List.mem_filterMap] at h
  obtain ⟨n, _, hmap⟩ := h
  rw [Option.map_eq_some'] at hmap
  obtain ⟨p, hfind, hsnd⟩ := hmap
  have hp := List.mem_of_find?_eq_some hfind
  rw [List.mem_map] at hp
  obtain ⟨a, ha, hpa⟩ := hp
  rw [List.mem_filter] at ha
  subst hsnd
  rw [← hpa]
  exact ha.2

theorem processColumnStatFilterLoop_all_exist (env : StatFilterEnv)
    (cols : List String) (h : ∀ c ∈ cols, env.childrenColumnExists c = true) :
    processColumnStatFilterLoop env cols = false := by
  induction cols with
  | nil => rfl
  | cons c rest ih =>
    unfold processColumnStatFilterLoop
    rw [if_pos (h c (List.mem_cons_self c rest))]
    exact ih (fun d hd => h d (List.mem_cons_of_mem c hd))

theorem fillReadColumns_eq (p : List String) (l : List String) :
    fillReadColumns p l =
      (l, if p.isEmpty then [] else l.filter (fun c => p.contains c),
          if p.isEmpty then [] else l.filter (fun c => !p.contains c)) := by
  induction l with
  | nil => simp [fillReadColumns]
  | cons c rest ih =>
    rw [fillReadColumns, ih]
    by_cases hp : p.isEmpty <;> by_cases hc : c ∈ p <;>
      simp [hp, hc, List.filter_cons]

theorem orcFillReadColumns_eq (p : List String) (acid : Bool) (acl : List String)
    (l : List String) :
    orcFillReadColumns p acid acl l =
      (l, if p.isEmpty then [] else l.filter (fun c => p.contains c),
          if p.isEmpty then []
          else l.filter (fun c => !p.contains c && (!acid || !acl.contains c))) := by
  induction l with
  | nil => simp [orcFillReadColumns]
  | cons c rest ih =>
    rw [orcFillReadColumns, ih]
    by_cases hp : p.isEmpty <;> by_cases hc : c ∈ p <;>
      by_cases hacl : c ∈ acl <;> cases acid <;>
      simp [hp, hc, hacl, List.filter_cons]

theorem rrLe_first_le {a b : RowRange} (h : rrLe a b) : a.firstRow ≤ b.firstRow := by
  rcases h with h | ⟨h, _⟩
  · omega
  · omega

theorem inAnyRange_append (r : Nat) (l1 l2 : List RowRange) :
    inAnyRange r (l1 ++ l2) ↔ inAnyRange r l1 ∨ inAnyRange r l2 := by
  constructor
  · rintro ⟨rng, hmem, hin⟩
    rw [List.mem_append] at hmem
    rcases hmem with h | h
    · exact Or.inl ⟨rng, h, hin⟩
    · exact Or.inr ⟨rng, h, hin⟩
  · rintro (⟨rng, hmem, hin⟩ | ⟨rng, hmem, hin⟩)
    · exact ⟨rng, List.mem_append_left _ hmem, hin⟩
    · exact ⟨rng, List.mem_append_right _ hmem, hin⟩

theorem inAnyRange_singleton (r : Nat) (rng : RowRange) :
    inAnyRange r [rng] ↔ inRowRange r rng := by
  unfold inAnyRange
  simp

theorem inAnyRange_perm {l1 l2 : List RowRange} (h : l1.Perm l2) (r : Nat) :
    inAnyRange r l1 ↔ inAnyRange r l2 := by
  constructor <;> rintro ⟨rng, hm, hin⟩
  · exact ⟨rng, h.mem_iff.mp hm, hin⟩
  · exact ⟨rng, h.mem_iff.mpr hm, hin⟩

theorem not_inAnyRange_iff (r : Nat) (l : List RowRange) :
    ¬ inAnyRange r l ↔ ∀ rng ∈ l, ¬ inRowRange r rng := by
  unfold inAnyRange
  push_neg
  rfl

/-- Invariant of the skip-range merge fold of `_process_page_index`: folding
`mergeStep` over the (sorted) remaining skipped ranges preserves that (A) all
processed ranges end at or before `skip_end`, (B) the rows below `skip_end`
covered by emitted candidates are exactly those covered by no processed
skipped range, (C) emitted candidates are non-empty and end at or before
`skip_end`, (D) emitted candidates are separated and in order, and (F)
`skip_end` is 0 or the end of some processed range. -/
theorem mergeFold_invariant (rest : List RowRange) :
    ∀ (processed acc : List RowRange) (skipEnd : Nat),
      List.Sorted rrLe rest →
      (∀ s ∈ rest, s.firstRow < s.lastRow) →
      (∀ s ∈ processed, s.lastRow ≤ skipEnd) →
      (∀ r : Nat, r < skipEnd → (inAnyRange r acc ↔ ¬ inAnyRange r processed)) →
      (∀ c ∈ acc, c.firstRow < c.lastRow ∧ c.lastRow ≤ skipEnd) →
      List.Chain' (fun a b => a.lastRow ≤ b.firstRow) acc →
      (skipEnd = 0 ∨ ∃ s ∈ processed, s.lastRow = skipEnd) →
      (∀ c ∈ acc, ∀ s ∈ rest, c.lastRow ≤ s.firstRow) →
      (∀ s ∈ processed ++ rest,
        s.lastRow ≤ (rest.foldl mergeStep (acc, skipEnd)).2) ∧
      (∀ r : Nat, r < (rest.foldl mergeStep (acc, skipEnd)).2 →
        (inAnyRange r (rest.foldl mergeStep (acc, skipEnd)).1 ↔
          ¬ inAnyRange r (processed ++ rest))) ∧
      (∀ c ∈ (rest.foldl mergeStep (acc, skipEnd)).1,
        c.firstRow < c.lastRow ∧
          c.lastRow ≤ (rest.foldl mergeStep (acc, skipEnd)).2) ∧
      List.Chain' (fun a b => a.lastRow ≤ b.firstRow)
        (rest.foldl mergeStep (acc, skipEnd)).1 ∧
      ((rest.foldl mergeStep (acc, skipEnd)).2 = 0 ∨
        ∃ s ∈ processed ++ rest,
          s.lastRow = (rest.foldl mergeStep (acc, skipEnd)).2) := by
  induction rest with
  | nil =>
    intro processed acc skipEnd _ _ hA hB hC hD hF _
    refine ⟨?_, ?_, hC, hD, ?_⟩
    · simpa using hA
    · simpa using hB
    · simpa using hF
  | cons r tail ih =>
    intro processed acc skipEnd hsort hval hA hB hC hD hF hG
    rw [List.sorted_cons] at hsort
    obtain ⟨hhead, htail⟩ := hsort
    have hrval : r.firstRow < r.lastRow := hval r (List.mem_cons_self r tail)
    have hval' : ∀ s ∈ tail, s.firstRow < s.lastRow :=
      fun s hs => hval s (List.mem_cons_of_mem r hs)
    rw [List.foldl_cons]
    by_cases hcase : r.firstRow ≤ skipEnd
    · -- merge branch: the new range extends (or lies inside) the current block
      have hstep : mergeStep (acc, skipEnd) r =
          (acc, if skipEnd < r.lastRow then r.lastRow else skipEnd) := by
        unfold mergeStep
        rw [if_pos hcase]
      rw [hstep]
      by_cases hext : skipEnd < r.lastRow
      · rw [if_pos hext]
        have hA' : ∀ s ∈ processed ++ [r], s.lastRow ≤ r.lastRow := by
          intro s hs
          rw [List.mem_append] at hs
          rcases hs with h | h
          · have := hA s h
            omega
          · rw [List.mem_singleton] at h
            subst h
            omega
        have hB' : ∀ r' : Nat, r' < r.lastRow →
            (inAnyRange r' acc ↔ ¬ inAnyRange r' (processed ++ [r])) := by
          intro r' hr'
          rw [inAnyRange_append, inAnyRange_singleton, not_or]
          by_cases hlt : r' < skipEnd
          · constructor
            · intro hacc
              refine ⟨(hB r' hlt).mp hacc, ?_⟩
              intro hin
              obtain ⟨c, hc, hcin⟩ := hacc
              have hcr := hG c hc r (List.mem_cons_self r tail)
              have h1 := hcin.2
              have h2 := hin.1
              omega
            · rintro ⟨hnp, _⟩
              exact (hB r' hlt).mpr hnp
          · constructor
            · rintro ⟨c, hc, hcin⟩
              have := (hC c hc).2
              have h1 := hcin.2
              omega
            · rintro ⟨_, hnr⟩
              exact absurd ⟨by omega, by omega⟩ hnr
        have hC' : ∀ c ∈ acc, c.firstRow < c.lastRow ∧ c.lastRow ≤ r.lastRow := by
          intro c hc
          have := hC c hc
          exact ⟨this.1, by omega⟩
        have hF' : r.lastRow = 0 ∨ ∃ s ∈ processed ++ [r], s.lastRow = r.lastRow := by
          right
          exact ⟨r, List.mem_append_right _ (List.mem_singleton.mpr rfl), rfl⟩
        have hG' : ∀ c ∈ acc, ∀ s ∈ tail, c.lastRow ≤ s.firstRow :=
          fun c hc s hs => hG c hc s (List.mem_cons_of_mem r hs)
        have hres := ih (processed ++ [r]) acc r.lastRow htail hval' hA' hB' hC' hD
          hF' hG'
        rwa [List.append_assoc, List.singleton_append] at hres
      · rw [if_neg hext]
        have hA' : ∀ s ∈ processed ++ [r], s.lastRow ≤ skipEnd := by
          intro s hs
          rw [List.mem_append] at hs
          rcases hs with h | h
          · exact hA s h
          · rw [List.mem_singleton] at h
            subst h
            omega
        have hB' : ∀ r' : Nat, r' < skipEnd →
            (inAnyRange r' acc ↔ ¬ inAnyRange r' (processed ++ [r])) := by
          intro r' hlt
          rw [inAnyRange_append, inAnyRange_singleton, not_or]
          constructor
          · intro hacc
            refine ⟨(hB r' hlt).mp hacc, ?_⟩
            intro hin
            obtain ⟨c, hc, hcin⟩ := hacc
            have hcr := hG c hc r (List.mem_cons_self r tail)
            have h1 := hcin.2
            have h2 := hin.1
            omega
          · rintro ⟨hnp, _⟩
            exact (hB r' hlt).mpr hnp
        have hres := ih (processed ++ [r]) acc skipEnd htail hval' hA' hB' hC hD
          ?_ ?_
        · rwa [List.append_assoc, List.singleton_append] at hres
        · rcases hF with h0 | ⟨s, hsmem, hsl⟩
          · exact Or.inl h0
          · exact Or.inr ⟨s, List.mem_append_left _ hsmem, hsl⟩
        · exact fun c hc s hs => hG c hc s (List.mem_cons_of_mem r hs)
    · -- emit branch: a gap [skipEnd, r.firstRow) becomes a candidate range
      have hsklt : skipEnd < r.firstRow := Nat.lt_of_not_le hcase
      have hstep : mergeStep (acc, skipEnd) r =
          (acc ++ [⟨skipEnd, r.firstRow⟩], r.lastRow) := by
        unfold mergeStep
        rw [if_neg hcase]
      rw [hstep]
      have hA' : ∀ s ∈ processed ++ [r], s.lastRow ≤ r.lastRow := by
        intro s hs
        rw [List.mem_append] at hs
        rcases hs with h | h
        · have := hA s h
          omega
        · rw [List.mem_singleton] at h
          subst h
          omega
      have hB' : ∀ r' : Nat, r' < r.lastRow →
          (inAnyRange r' (acc ++ [⟨skipEnd, r.firstRow⟩]) ↔
            ¬ inAnyRange r' (processed ++ [r])) := by
        intro r' hr'
        rw [inAnyRange_append, inAnyRange_singleton, inAnyRange_append,
          inAnyRange_singleton, not_or]
        rcases Nat.lt_or_ge r' skipEnd with h1 | h1
        · constructor
          · rintro (hacc | hnew)
            · refine ⟨(hB r' h1).mp hacc, ?_⟩
              intro hin
              have := hin.1
              omega
            · have h4 : skipEnd ≤ r' := hnew.1
              omega
          · rintro ⟨hnp, _⟩
            exact Or.inl ((hB r' h1).mpr hnp)
        · rcases Nat.lt_or_ge r' r.firstRow with h2 | h2
          · constructor
            · intro _
              refine ⟨?_, ?_⟩
              · rintro ⟨s, hsmem, hsin⟩
                have := hA s hsmem
                have h3 := hsin.2
                omega
              · intro hin
                have h4 : r.firstRow ≤ r' := hin.1
                omega
            · intro _
              exact Or.inr ⟨show skipEnd ≤ r' by omega, show r' < r.firstRow by omega⟩
          · constructor
            · rintro (⟨c, hc, hcin⟩ | hnew)
              · have := (hC c hc).2
                have h3 := hcin.2
                omega
              · have h4 : r' < r.firstRow := hnew.2
                omega
            · intro hn
              exact absurd ⟨by omega, by omega⟩ hn.2
      have hC' : ∀ c ∈ acc ++ [⟨skipEnd, r.firstRow⟩],
          c.firstRow < c.lastRow ∧ c.lastRow ≤ r.lastRow := by
        intro c hc
        rw [List.mem_append] at hc
        rcases hc with h | h
        · have := hC c h
          exact ⟨this.1, by omega⟩
        · rw [List.mem_singleton] at h
          subst h
          exact ⟨hsklt, show r.firstRow ≤ r.lastRow by omega⟩
      have hD' : List.Chain' (fun a b => a.lastRow ≤ b.firstRow)
          (acc ++ [⟨skipEnd, r.firstRow⟩]) := by
        rw [List.chain'_append]
        refine ⟨hD, List.chain'_singleton _, ?_⟩
        intro x hx y hy
        rw [List.head?_cons, Option.mem_some_iff] at hy
        subst hy
        exact (hC x (List.mem_of_mem_getLast? hx)).2
      have hF' : r.lastRow = 0 ∨ ∃ s ∈ processed ++ [r], s.lastRow = r.lastRow :=
        Or.inr ⟨r, List.mem_append_right _ (List.mem_singleton.mpr rfl), rfl⟩
      have hG' : ∀ c ∈ acc ++ [⟨skipEnd, r.firstRow⟩], ∀ s ∈ tail,
          c.lastRow ≤ s.firstRow := by
        intro c hc s hs
        rw [List.mem_append] at hc
        rcases hc with h | h
        · exact hG c h s (List.mem_cons_of_mem r hs)
        · rw [List.mem_singleton] at h
          subst h
          exact rrLe_first_le (hhead s hs)
      have hres := ih (processed ++ [r]) (acc ++ [⟨skipEnd, r.firstRow⟩]) r.lastRow
        htail hval' hA' hB' hC' hD' hF' hG'
      rwa [List.append_assoc, List.singleton_append] at hres

theorem filter_ne_nil_iff {α : Type} (p : α → Bool) (l : List α) :
    l.filter p ≠ [] ↔ ∃ a ∈ l, p a = true := by
  rw [Ne, List.filter_eq_nil_iff]
  push_neg
  simp

theorem surviving_nil_iff (dictValues : List String) (evalConjuncts : String → Bool) :
    survivingDictCodes dictValues evalConjuncts = [] ↔
      ((dictValues.map evalConjuncts).all (fun b => b == false)) = true := by
  unfold survivingDictCodes
  rw [List.map_eq_nil_iff, List.filter_eq_nil_iff, List.all_eq_true]
  constructor
  · intro h b hb
    have : b ∈ ((dictValues.map evalConjuncts).enum).map Prod.snd := by
      rw [List.enum_map_snd]; exact hb
    rw [List.mem_map] at this
    obtain ⟨q, hq, hqb⟩ := this
    have := h q hq
    simp only [Bool.not_eq_true] at this
    simp [← hqb, this]
  · intro h q hq
    have : q.2 ∈ ((dictValues.map evalConjuncts).enum).map Prod.snd :=
      List.mem_map_of_mem Prod.snd hq
    rw [List.enum_map_snd] at this
    have := h q.2 this
    simp only [beq_iff_eq] at this
    simp [this]

/-! ## C1 -/

/-- C1: every parquet row group survives the column-statistics filter.  The
guard `if (children_column_exists(col)) continue;` at
`vparquet_reader.cpp:938` skips every column of `_read_table_columns`, because
`init_reader` only ever places columns with `children_column_exists = true`
into that list; so `*filter_group` keeps its initial `false` for all
statistics and all `filter_by_stats` verdicts, and no row group is ever
marked skipped — contradicting the claim that a row group whose statistics
prove disjointness from the conjuncts is skipped. -/
theorem c1_row_group_stat_filter_never_skips (enableFilterByMinMax hasValueRanges : Bool)
    (env : StatFilterEnv) (allColumnNames schemaColumns : List String) :
    processColumnStatFilter enableFilterByMinMax hasValueRanges env
      (initReaderReadTableColumns allColumnNames env.childrenColumnExists
        env.childrenFileColumnName schemaColumns) = false := by
  unfold processColumnStatFilter
  split
  · rfl
  · exact processColumnStatFilterLoop_all_exist env _
      (fun c hc => mem_initReaderReadTableColumns hc)

/-- C1, concrete Scenario A shape: a single testable column whose statistics
(through the abstract `filter_by_stats`) would prove the row group disjoint
(`filterByStats` returns `true`), yet the stat filter still keeps the
group. -/
theorem c1_scenario_a :
    processColumnStatFilter true true
      ⟨fun _ => true, id, fun _ => true, fun _ => 0,
        fun _ => ⟨true, true, true, true, true, 0, 10⟩, fun _ => true⟩
      (initReaderReadTableColumns ["x"] (fun _ => true) id ["x"]) = false := by
  rfl

/-! ## C2 -/

/-- C2, counterexample: two predicate columns over a 4-row group, column one
skipping rows `[0,2)`, column two skipping rows `[1,3)`.  Row 0 is kept by
column two, so under the claim's "union of the kept row ranges of all
predicate columns" it stays a candidate; the implementation complements the
union of ALL skipped ranges and drops it. -/
theorem c2_counterexample :
    specUnionKeptCandidate 4 [[⟨0, 2⟩], [⟨1, 3⟩]] 0 ∧
      ¬ inAnyRange 0
        (processPageIndex true false false false true true 4 [[⟨0, 2⟩], [⟨1, 3⟩]]) := by
  decide

/-- C2, amended: within a kept row group with a usable page index, the
computed `candidate_row_ranges` are sorted, pairwise disjoint, non-empty, and
cover exactly the rows of `[0, num_rows)` not contained in ANY predicate
column's skipped ranges — the complement of the union of skipped ranges (the
intersection of the per-column kept ranges), so a page skipped for one
predicate column excludes its rows even when another column keeps them; when
min/max filtering or the page index is disabled or absent, the single
candidate range is the whole row group `[0, num_rows)`. -/
theorem c2_page_index_candidates (numRows : Nat) (hpos : 0 < numRows)
    (skippedPerColumn : List (List RowRange))
    (hvalid : ∀ rng ∈ skippedPerColumn.flatten,
      rng.firstRow < rng.lastRow ∧ rng.lastRow ≤ numRows) :
    List.Chain' (fun a b => a.lastRow ≤ b.firstRow)
      (processPageIndex true false false false true true numRows skippedPerColumn) ∧
    (∀ rng ∈ processPageIndex true false false false true true numRows skippedPerColumn,
      rng.firstRow < rng.lastRow ∧ rng.lastRow ≤ numRows) ∧
    (∀ r : Nat,
      inAnyRange r
          (processPageIndex true false false false true true numRows skippedPerColumn) ↔
        (r < numRows ∧ ∀ rng ∈ skippedPerColumn.flatten, ¬ inRowRange r rng)) ∧
    (∀ e1 e2 e3 e4 e5 e6 : Bool,
      (e1 = false ∨ e2 = true ∨ e3 = true ∨ e4 = true ∨ e5 = false ∨ e6 = false) →
      processPageIndex e1 e2 e3 e4 e5 e6 numRows skippedPerColumn = [⟨0, numRows⟩]) := by
  have hpass : ∀ e1 e2 e3 e4 e5 e6 : Bool,
      (e1 = false ∨ e2 = true ∨ e3 = true ∨ e4 = true ∨ e5 = false ∨ e6 = false) →
      processPageIndex e1 e2 e3 e4 e5 e6 numRows skippedPerColumn = [⟨0, numRows⟩] := by
    intro e1 e2 e3 e4 e5 e6 h
    unfold processPageIndex
    rcases h with h | h | h | h | h | h <;> subst h <;> simp [ite_self]
  have hmain :
      List.Chain' (fun a b => a.lastRow ≤ b.firstRow)
        (processPageIndexCore numRows skippedPerColumn.flatten) ∧
      (∀ rng ∈ processPageIndexCore numRows skippedPerColumn.flatten,
        rng.firstRow < rng.lastRow ∧ rng.lastRow ≤ numRows) ∧
      (∀ r : Nat,
        inAnyRange r (processPageIndexCore numRows skippedPerColumn.flatten) ↔
          (r < numRows ∧ ∀ rng ∈ skippedPerColumn.flatten, ¬ inRowRange r rng)) := by
    by_cases hempty : skippedPerColumn.flatten.isEmpty = true
    · have hnil : skippedPerColumn.flatten = [] := List.isEmpty_iff.mp hempty
      have hcoreE : processPageIndexCore numRows skippedPerColumn.flatten =
          [⟨0, numRows⟩] := by
        unfold processPageIndexCore
        rw [if_pos hempty]
      rw [hcoreE]
      refine ⟨List.chain'_singleton _, ?_, ?_⟩
      · intro rng hrng
        rw [List.mem_singleton] at hrng
        subst hrng
        exact ⟨hpos, le_refl _⟩
      · intro r
        rw [inAnyRange_singleton, hnil]
        simp only [List.not_mem_nil, false_implies, implies_true, and_true]
        constructor
        · intro h
          exact h.2
        · intro h
          exact ⟨Nat.zero_le r, h⟩
    · have hperm := List.perm_insertionSort rrLe skippedPerColumn.flatten
      have hsorted := List.sorted_insertionSort rrLe skippedPerColumn.flatten
      have hinv := mergeFold_invariant (skippedPerColumn.flatten.insertionSort rrLe)
        [] [] 0 hsorted
        (fun s hs => (hvalid s (hperm.mem_iff.mp hs)).1)
        (by intro s hs; simp at hs)
        (by intro r hr; omega)
        (by intro c hc; simp at hc)
        List.chain'_nil
        (Or.inl rfl)
        (by intro c hc; simp at hc)
      rw [List.nil_append] at hinv
      have hcore : processPageIndexCore numRows skippedPerColumn.flatten =
          (if ((skippedPerColumn.flatten.insertionSort rrLe).foldl mergeStep
              ([], 0)).2 ≠ numRows
           then ((skippedPerColumn.flatten.insertionSort rrLe).foldl mergeStep
              ([], 0)).1 ++
             [⟨((skippedPerColumn.flatten.insertionSort rrLe).foldl mergeStep
              ([], 0)).2, numRows⟩]
           else ((skippedPerColumn.flatten.insertionSort rrLe).foldl mergeStep
              ([], 0)).1) := by
        unfold processPageIndexCore
        rw [if_neg hempty]
      rw [hcore]
      set st := (skippedPerColumn.flatten.insertionSort rrLe).foldl mergeStep ([], 0)
        with hstdef
      obtain ⟨hA, hB, hC, hD, hF⟩ := hinv
      have hstle : st.2 ≤ numRows := by
        rcases hF with h0 | ⟨s, hsmem, hsl⟩
        · omega
        · have := (hvalid s (hperm.mem_iff.mp hsmem)).2
          omega
      refine ⟨?_, ?_, ?_⟩
      · by_cases hend : st.2 = numRows
        · rw [if_neg (not_not_intro hend)]
          exact hD
        · rw [if_pos hend, List.chain'_append]
          refine ⟨hD, List.chain'_singleton _, ?_⟩
          intro x hx y hy
          rw [List.head?_cons, Option.mem_some_iff] at hy
          subst hy
          exact (hC x (List.mem_of_mem_getLast? hx)).2
      · intro rng hrng
        by_cases hend : st.2 = numRows
        · rw [if_neg (not_not_intro hend)] at hrng
          have := hC rng hrng
          exact ⟨this.1, by omega⟩
        · rw [if_pos hend, List.mem_append] at hrng
          rcases hrng with h | h
          · have := hC rng h
            exact ⟨this.1, by omega⟩
          · rw [List.mem_singleton] at h
            subst h
            exact ⟨show st.2 < numRows by omega, le_refl _⟩
      · intro r
        rw [← not_inAnyRange_iff, ← inAnyRange_perm hperm]
        by_cases hend : st.2 = numRows
        · rw [if_neg (not_not_intro hend)]
          by_cases hr : r < numRows
          · rw [hB r (by omega)]
            constructor
            · intro h
              exact ⟨hr, h⟩
            · rintro ⟨_, h⟩
              exact h
          · constructor
            · rintro ⟨c, hc, hcin⟩
              have := (hC c hc).2
              have h1 := hcin.2
              omega
            · rintro ⟨h, _⟩
              omega
        · have hstlt : st.2 < numRows := by omega
          rw [if_pos hend, inAnyRange_append, inAnyRange_singleton]
          rcases Nat.lt_or_ge r st.2 with h1 | h1
          · constructor
            · rintro (hacc | hnew)
              · exact ⟨by omega, (hB r h1).mp hacc⟩
              · have h2 : st.2 ≤ r := hnew.1
                omega
            · rintro ⟨_, hnos⟩
              exact Or.inl ((hB r h1).mpr hnos)
          · constructor
            · rintro (⟨c, hc, hcin⟩ | hnew)
              · have := (hC c hc).2
                have h2 := hcin.2
                omega
              · have h3 : r < numRows := hnew.2
                refine ⟨h3, ?_⟩
                rintro ⟨s, hsmem, hsin⟩
                have := hA s hsmem
                have h4 := hsin.2
                omega
            · rintro ⟨hr, _⟩
              exact Or.inr ⟨show st.2 ≤ r by omega, show r < numRows by omega⟩
  exact ⟨hmain.1, hmain.2.1, hmain.2.2, hpass⟩

/-- C2, witness: in the counterexample's configuration, row 3 (kept by every
column) is a candidate. -/
theorem c2_witness :
    inAnyRange 3 (processPageIndex true false false false true true 4
      [[⟨0, 2⟩], [⟨1, 3⟩]]) := by
  have h := (c2_page_index_candidates 4 (by decide) [[⟨0, 2⟩], [⟨1, 3⟩]]
    (by decide)).2.2.1 3
  exact h.mpr (by decide)

/-! ## C3 -/

/-- C3, counterexample: the file value 15 at file scale 2 (the number 0.15)
read at requested scale 1 decodes to 1 (0.1) by truncating division, while
`round(0.15, 1)` is 0.2, i.e. 2 at scale 1. -/
theorem c3_counterexample :
    decodeDecimalValue (initDecimalConverter 1 2) 15 = 1 ∧
      specRoundDecimal 2 1 15 = 2 ∧ (1 : Int) ≠ 2 := by
  refine ⟨by decide, by decide, by decide⟩

/-- C3, amended: rescaling upward (requested scale ≥ file scale) is an exact
single multiplication by `10^(S'-S)`; rescaling downward is a single division
by `10^(S-S')` that truncates toward zero (floor of the quotient for
non-negative values, negated floor of the negated value otherwise) — not
rounding.  The scale parameters are computed once per chunk by
`initDecimalConverter` and the per-value mapping has no further branch on the
scales. -/
theorem c3_decimal_rescale_truncates (destScale orcScale : Nat) (v : Int) :
    (orcScale ≤ destScale →
      decodeDecimalValue (initDecimalConverter destScale orcScale) v =
        v * (10 : Int) ^ (destScale - orcScale)) ∧
    (destScale < orcScale → 0 ≤ v →
      decodeDecimalValue (initDecimalConverter destScale orcScale) v =
        v / (10 : Int) ^ (orcScale - destScale)) ∧
    (destScale < orcScale → v < 0 →
      decodeDecimalValue (initDecimalConverter destScale orcScale) v =
        -((-v) / (10 : Int) ^ (orcScale - destScale))) := by
  refine ⟨?_, ?_, ?_⟩
  · intro h
    unfold initDecimalConverter
    rcases Nat.lt_or_ge orcScale destScale with hlt | hge
    · rw [if_pos hlt]
      rfl
    · have heq : destScale = orcScale := Nat.le_antisymm hge h
      subst heq
      rw [if_neg (lt_irrefl _), if_neg (lt_irrefl _)]
      show v = v * 10 ^ (destScale - destScale)
      rw [Nat.sub_self, pow_zero, mul_one]
  · intro h hv
    unfold initDecimalConverter
    rw [if_neg (by omega), if_pos h]
    show v.tdiv ((10 : Int) ^ (orcScale - destScale)) = _
    exact Int.tdiv_eq_ediv hv (by positivity)
  · intro h hv
    unfold initDecimalConverter
    rw [if_neg (by omega), if_pos h]
    show v.tdiv ((10 : Int) ^ (orcScale - destScale)) = _
    have h1 : v.tdiv ((10 : Int) ^ (orcScale - destScale)) =
        -((-v).tdiv ((10 : Int) ^ (orcScale - destScale))) := by
      rw [← Int.neg_tdiv, neg_neg]
    rw [h1, Int.tdiv_eq_ediv (by omega) (by positivity)]

/-- C3, witness: 1.57 at file scale 2 read at scale 1 decodes to 1.5. -/
theorem c3_witness :
    decodeDecimalValue (initDecimalConverter 1 2) 157 = 15 := by
  have h := (c3_decimal_rescale_truncates 1 2 157).2.1 (by decide) (by decide)
  rw [h]
  decide

/-! ## C4 -/

/-- C4: in both readers, lazy-materialization mode is enabled iff lazy
materialization is not globally disabled, the predicate-column list is
non-empty and the lazy-column list is non-empty; equivalently (Parquet side),
iff some read column is referenced by the conjuncts and some read column is
not.  The ORC reader's extra `conjuncts.empty()` override is subsumed: empty
conjuncts give an empty predicate-column list. -/
theorem c4_lazy_mode_decision (enableLazyMat : Bool)
    (readTableColumns predicateCols partitionCols missingCols : List String)
    (conjunctSlots : List (List String)) (acidMode : Bool)
    (acidRowColumns : List String) :
    ((parquetSetFillColumns enableLazyMat readTableColumns predicateCols partitionCols
          missingCols).canLazyRead =
      (enableLazyMat &&
        !(parquetSetFillColumns enableLazyMat readTableColumns predicateCols partitionCols
            missingCols).predicateColumns.isEmpty &&
        !(parquetSetFillColumns enableLazyMat readTableColumns predicateCols partitionCols
            missingCols).lazyReadColumns.isEmpty)) ∧
    ((orcSetFillColumns enableLazyMat conjunctSlots acidMode acidRowColumns
          readTableColumns partitionCols missingCols).canLazyRead =
      (enableLazyMat &&
        !(orcSetFillColumns enableLazyMat conjunctSlots acidMode acidRowColumns
            readTableColumns partitionCols missingCols).predicateColumns.isEmpty &&
        !(orcSetFillColumns enableLazyMat conjunctSlots acidMode acidRowColumns
            readTableColumns partitionCols missingCols).lazyReadColumns.isEmpty)) ∧
    ((parquetSetFillColumns enableLazyMat readTableColumns predicateCols partitionCols
          missingCols).canLazyRead = true ↔
      enableLazyMat = true ∧ (∃ c ∈ readTableColumns, c ∈ predicateCols) ∧
        (∃ c ∈ readTableColumns, c ∉ predicateCols)) := by
  refine ⟨?_, ?_, ?_⟩
  · simp only [parquetSetFillColumns, fillReadColumns_eq]
  · simp only [orcSetFillColumns, orcFillReadColumns_eq]
    by_cases hcs : conjunctSlots.isEmpty
    · have hflat : conjunctSlots.flatten = [] := by
        rw [List.isEmpty_iff] at hcs
        simp [hcs]
      simp [hcs, hflat]
    · simp [hcs]
  · simp only [parquetSetFillColumns, fillReadColumns_eq]
    by_cases hp : predicateCols.isEmpty
    · have hpnil : predicateCols = [] := List.isEmpty_iff.mp hp
      subst hpnil
      simp
    · have hpe : predicateCols.isEmpty = false := eq_false_of_ne_true hp
      simp only [hpe, Bool.false_eq_true, if_false]
      rw [Bool.and_eq_true, Bool.and_eq_true, Bool.not_eq_true',
        Bool.not_eq_true', List.isEmpty_eq_false, List.isEmpty_eq_false,
        filter_ne_nil_iff, filter_ne_nil_iff]
      constructor
      · rintro ⟨⟨he, ⟨c1, hc1, hc1p⟩⟩, ⟨c2, hc2, hc2p⟩⟩
        refine ⟨he, ⟨c1, hc1, by simpa using hc1p⟩, ⟨c2, hc2, by simpa using hc2p⟩⟩
      · rintro ⟨he, ⟨c1, hc1, hc1p⟩, ⟨c2, hc2, hc2p⟩⟩
        exact ⟨⟨he, ⟨c1, hc1, by simpa using hc1p⟩⟩, ⟨c2, hc2, by simpa using hc2p⟩⟩

/-- C4, witness: two read columns, one referenced by a conjunct, lazy
materialization enabled globally — lazy mode turns on. -/
theorem c4_witness :
    (parquetSetFillColumns true ["a", "b"] ["a"] [] []).canLazyRead = true := by
  refine (c4_lazy_mode_decision true ["a", "b"] ["a"] [] [] [] false []).2.2.mpr ?_
  refine ⟨rfl, ⟨"a", by decide, by decide⟩, ⟨"b", by decide, by decide⟩⟩

/-! ## C5 -/

/-- C5, counterexample: with an empty conjunct set (hence an empty
predicate-column map) and one file-present read column, the column ends up in
`all_read_columns` only — in NONE of the four sets
(predicate, lazy, partition, missing), contradicting the claim that the
partition into the four sets also holds when the conjunct set is empty. -/
theorem c5_counterexample :
    "a" ∈ (parquetSetFillColumns true ["a"] [] [] []).allReadColumns ∧
    "a" ∉ (parquetSetFillColumns true ["a"] [] [] []).predicateColumns ∧
    "a" ∉ (parquetSetFillColumns true ["a"] [] [] []).lazyReadColumns ∧
    "a" ∉ (parquetSetFillColumns true ["a"] [] [] []).partitionColumns ∧
    "a" ∉ (parquetSetFillColumns true ["a"] [] [] []).missingColumns := by
  refine ⟨by decide, by decide, by decide, by decide, by decide⟩

/-- C5, amended, covering both readers' `set_fill_columns`: the predicate and
lazy lists are always disjoint.  When the predicate-column map is non-empty,
every file-present read column lands in exactly one of {predicate, lazy} —
except that in the ORC reader's ACID mode a transactional-hive pseudo read
column that is not predicate-referenced is placed in neither list
(`vorc_reader.cpp:1005-1011`; it is carried through the ORC-level
`predicate_orc_columns` instead); when the map is empty (no conjunct
references a column) both lists are empty and read columns are carried only
in `all_read_columns`.  Partition-argument columns land in
`predicate_partition_columns` iff referenced by a predicate, in
`partition_columns` iff not — except that when lazy mode is off the
predicate-partition columns are merged back into `partition_columns`;
missing-argument columns behave the same way, in both readers. -/
theorem c5_column_partition (enableLazyMat : Bool)
    (readTableColumns predicateCols partitionCols missingCols : List String)
    (conjunctSlots : List (List String)) (acidMode : Bool)
    (acidRowColumns : List String) :
    (∀ c, c ∈ (parquetSetFillColumns enableLazyMat readTableColumns predicateCols
        partitionCols missingCols).predicateColumns →
      c ∉ (parquetSetFillColumns enableLazyMat readTableColumns predicateCols
        partitionCols missingCols).lazyReadColumns) ∧
    (predicateCols ≠ [] → ∀ c ∈ readTableColumns,
      (c ∈ (parquetSetFillColumns enableLazyMat readTableColumns predicateCols
          partitionCols missingCols).predicateColumns ↔ c ∈ predicateCols) ∧
      (c ∈ (parquetSetFillColumns enableLazyMat readTableColumns predicateCols
          partitionCols missingCols).lazyReadColumns ↔ c ∉ predicateCols)) ∧
    (predicateCols = [] →
      (parquetSetFillColumns enableLazyMat readTableColumns predicateCols
          partitionCols missingCols).predicateColumns = [] ∧
      (parquetSetFillColumns enableLazyMat readTableColumns predicateCols
          partitionCols missingCols).lazyReadColumns = []) ∧
    (∀ c ∈ partitionCols,
      (c ∈ (parquetSetFillColumns enableLazyMat readTableColumns predicateCols
          partitionCols missingCols).predicatePartitionColumns ↔ c ∈ predicateCols) ∧
      ((parquetSetFillColumns enableLazyMat readTableColumns predicateCols
          partitionCols missingCols).canLazyRead = true →
        (c ∈ (parquetSetFillColumns enableLazyMat readTableColumns predicateCols
          partitionCols missingCols).partitionColumns ↔ c ∉ predicateCols)) ∧
      ((parquetSetFillColumns enableLazyMat readTableColumns predicateCols
          partitionCols missingCols).canLazyRead = false →
        c ∈ (parquetSetFillColumns enableLazyMat readTableColumns predicateCols
          partitionCols missingCols).partitionColumns)) ∧
    (∀ c ∈ missingCols,
      (c ∈ (parquetSetFillColumns enableLazyMat readTableColumns predicateCols
          partitionCols missingCols).predicateMissingColumns ↔ c ∈ predicateCols) ∧
      ((parquetSetFillColumns enableLazyMat readTableColumns predicateCols
          partitionCols missingCols).canLazyRead = true →
        (c ∈ (parquetSetFillColumns enableLazyMat readTableColumns predicateCols
          partitionCols missingCols).missingColumns ↔ c ∉ predicateCols)) ∧
      ((parquetSetFillColumns enableLazyMat readTableColumns predicateCols
          partitionCols missingCols).canLazyRead = false →
        c ∈ (parquetSetFillColumns enableLazyMat readTableColumns predicateCols
          partitionCols missingCols).missingColumns)) ∧
    (∀ c, c ∈ (orcSetFillColumns enableLazyMat conjunctSlots acidMode acidRowColumns
          readTableColumns partitionCols missingCols).predicateColumns →
      c ∉ (orcSetFillColumns enableLazyMat conjunctSlots acidMode acidRowColumns
          readTableColumns partitionCols missingCols).lazyReadColumns) ∧
    (conjunctSlots.flatten ≠ [] → ∀ c ∈ readTableColumns,
      (c ∈ (orcSetFillColumns enableLazyMat conjunctSlots acidMode acidRowColumns
          readTableColumns partitionCols missingCols).predicateColumns ↔
        c ∈ conjunctSlots.flatten) ∧
      (c ∈ (orcSetFillColumns enableLazyMat conjunctSlots acidMode acidRowColumns
          readTableColumns partitionCols missingCols).lazyReadColumns ↔
        (c ∉ conjunctSlots.flatten ∧ (acidMode = false ∨ c ∉ acidRowColumns)))) ∧
    (conjunctSlots.flatten = [] →
      (orcSetFillColumns enableLazyMat conjunctSlots acidMode acidRowColumns
          readTableColumns partitionCols missingCols).predicateColumns = [] ∧
      (orcSetFillColumns enableLazyMat conjunctSlots acidMode acidRowColumns
          readTableColumns partitionCols missingCols).lazyReadColumns = []) ∧
    (∀ c ∈ partitionCols,
      (c ∈ (orcSetFillColumns enableLazyMat conjunctSlots acidMode acidRowColumns
          readTableColumns partitionCols missingCols).predicatePartitionColumns ↔
        c ∈ conjunctSlots.flatten) ∧
      ((orcSetFillColumns enableLazyMat conjunctSlots acidMode acidRowColumns
          readTableColumns partitionCols missingCols).canLazyRead = true →
        (c ∈ (orcSetFillColumns enableLazyMat conjunctSlots acidMode acidRowColumns
          readTableColumns partitionCols missingCols).partitionColumns ↔
          c ∉ conjunctSlots.flatten)) ∧
      ((orcSetFillColumns enableLazyMat conjunctSlots acidMode acidRowColumns
          readTableColumns partitionCols missingCols).canLazyRead = false →
        c ∈ (orcSetFillColumns enableLazyMat conjunctSlots acidMode acidRowColumns
          readTableColumns partitionCols missingCols).partitionColumns)) ∧
    (∀ c ∈ missingCols,
      (c ∈ (orcSetFillColumns enableLazyMat conjunctSlots acidMode acidRowColumns
          readTableColumns partitionCols missingCols).predicateMissingColumns ↔
        c ∈ conjunctSlots.flatten) ∧
      ((orcSetFillColumns enableLazyMat conjunctSlots acidMode acidRowColumns
          readTableColumns partitionCols missingCols).canLazyRead = true →
        (c ∈ (orcSetFillColumns enableLazyMat conjunctSlots acidMode acidRowColumns
          readTableColumns partitionCols missingCols).missingColumns ↔
          c ∉ conjunctSlots.flatten)) ∧
      ((orcSetFillColumns enableLazyMat conjunctSlots acidMode acidRowColumns
          readTableColumns partitionCols missingCols).canLazyRead = false →
        c ∈ (orcSetFillColumns enableLazyMat conjunctSlots acidMode acidRowColumns
          readTableColumns partitionCols missingCols).missingColumns)) := by
  have hparquet :
    (∀ c, c ∈ (parquetSetFillColumns enableLazyMat readTableColumns predicateCols
        partitionCols missingCols).predicateColumns →
      c ∉ (parquetSetFillColumns enableLazyMat readTableColumns predicateCols
        partitionCols missingCols).lazyReadColumns) ∧
    (predicateCols ≠ [] → ∀ c ∈ readTableColumns,
      (c ∈ (parquetSetFillColumns enableLazyMat readTableColumns predicateCols
          partitionCols missingCols).predicateColumns ↔ c ∈ predicateCols) ∧
      (c ∈ (parquetSetFillColumns enableLazyMat readTableColumns predicateCols
          partitionCols missingCols).lazyReadColumns ↔ c ∉ predicateCols)) ∧
    (predicateCols = [] →
      (parquetSetFillColumns enableLazyMat readTableColumns predicateCols
          partitionCols missingCols).predicateColumns = [] ∧
      (parquetSetFillColumns enableLazyMat readTableColumns predicateCols
          partitionCols missingCols).lazyReadColumns = []) ∧
    (∀ c ∈ partitionCols,
      (c ∈ (parquetSetFillColumns enableLazyMat readTableColumns predicateCols
          partitionCols missingCols).predicatePartitionColumns ↔ c ∈ predicateCols) ∧
      ((parquetSetFillColumns enableLazyMat readTableColumns predicateCols
          partitionCols missingCols).canLazyRead = true →
        (c ∈ (parquetSetFillColumns enableLazyMat readTableColumns predicateCols
          partitionCols missingCols).partitionColumns ↔ c ∉ predicateCols)) ∧
      ((parquetSetFillColumns enableLazyMat readTableColumns predicateCols
          partitionCols missingCols).canLazyRead = false →
        c ∈ (parquetSetFillColumns enableLazyMat readTableColumns predicateCols
          partitionCols missingCols).partitionColumns)) ∧
    (∀ c ∈ missingCols,
      (c ∈ (parquetSetFillColumns enableLazyMat readTableColumns predicateCols
          partitionCols missingCols).predicateMissingColumns ↔ c ∈ predicateCols) ∧
      ((parquetSetFillColumns enableLazyMat readTableColumns predicateCols
          partitionCols missingCols).canLazyRead = true →
        (c ∈ (parquetSetFillColumns enableLazyMat readTableColumns predicateCols
          partitionCols missingCols).missingColumns ↔ c ∉ predicateCols)) ∧
      ((parquetSetFillColumns enableLazyMat readTableColumns predicateCols
          partitionCols missingCols).canLazyRead = false →
        c ∈ (parquetSetFillColumns enableLazyMat readTableColumns predicateCols
          partitionCols missingCols).missingColumns)) := by
    simp only [parquetSetFillColumns, fillReadColumns_eq]
    by_cases hp : predicateCols.isEmpty
    · have hpnil : predicateCols = [] := List.isEmpty_iff.mp hp
      subst hpnil
      refine ⟨?_, ?_, ?_, ?_, ?_⟩
      · intro c hc
        simp at hc
      · intro hne
        exact absurd rfl hne
      · intro _
        simp
      · intro c hc
        refine ⟨by simp, ?_, ?_⟩ <;> intro h <;> simp_all
      · intro c hc
        refine ⟨by simp, ?_, ?_⟩ <;> intro h <;> simp_all
    · have hpe : predicateCols.isEmpty = false := eq_false_of_ne_true hp
      simp only [hpe, Bool.false_eq_true, if_false]
      refine ⟨?_, ?_, ?_, ?_, ?_⟩
      · intro c hc hc2
        rw [List.mem_filter] at hc hc2
        have h1 := hc.2
        have h2 := hc2.2
        simp at h1 h2
        exact h2 h1
      · intro _ c hcr
        rw [List.mem_filter, List.mem_filter]
        constructor
        · constructor
          · rintro ⟨_, h⟩
            simpa using h
          · intro h
            exact ⟨hcr, by simpa using h⟩
        · constructor
          · rintro ⟨_, h⟩
            simpa using h
          · intro h
            exact ⟨hcr, by simpa using h⟩
      · intro hnil
        rw [hnil] at hp
        exact absurd rfl hp
      · intro c hcp
        refine ⟨?_, ?_, ?_⟩
        · rw [List.mem_filter]
          constructor
          · rintro ⟨_, h⟩
            simpa using h
          · intro h
            exact ⟨hcp, by simpa using h⟩
        · intro hlazy
          rw [if_pos hlazy, List.mem_filter]
          constructor
          · rintro ⟨_, h⟩
            simpa using h
          · intro h
            exact ⟨hcp, by simpa using h⟩
        · intro hlazy
          rw [if_neg (by rw [hlazy]; exact Bool.false_ne_true)]
          rw [List.mem_append, List.mem_filter, List.mem_filter]
          by_cases hcpred : c ∈ predicateCols
          · exact Or.inr ⟨hcp, by simpa using hcpred⟩
          · exact Or.inl ⟨hcp, by simpa using hcpred⟩
      · intro c hcm
        refine ⟨?_, ?_, ?_⟩
        · rw [List.mem_filter]
          constructor
          · rintro ⟨_, h⟩
            simpa using h
          · intro h
            exact ⟨hcm, by simpa using h⟩
        · intro hlazy
          rw [if_pos hlazy, List.mem_filter]
          constructor
          · rintro ⟨_, h⟩
            simpa using h
          · intro h
            exact ⟨hcm, by simpa using h⟩
        · intro hlazy
          rw [if_neg (by rw [hlazy]; exact Bool.false_ne_true)]
          rw [List.mem_append, List.mem_filter, List.mem_filter]
          by_cases hcpred : c ∈ predicateCols
          · exact Or.inr ⟨hcm, by simpa using hcpred⟩
          · exact Or.inl ⟨hcm, by simpa using hcpred⟩
  have horc :
    (∀ c, c ∈ (orcSetFillColumns enableLazyMat conjunctSlots acidMode acidRowColumns
          readTableColumns partitionCols missingCols).predicateColumns →
      c ∉ (orcSetFillColumns enableLazyMat conjunctSlots acidMode acidRowColumns
          readTableColumns partitionCols missingCols).lazyReadColumns) ∧
    (conjunctSlots.flatten ≠ [] → ∀ c ∈ readTableColumns,
      (c ∈ (orcSetFillColumns enableLazyMat conjunctSlots acidMode acidRowColumns
          readTableColumns partitionCols missingCols).predicateColumns ↔
        c ∈ conjunctSlots.flatten) ∧
      (c ∈ (orcSetFillColumns enableLazyMat conjunctSlots acidMode acidRowColumns
          readTableColumns partitionCols missingCols).lazyReadColumns ↔
        (c ∉ conjunctSlots.flatten ∧ (acidMode = false ∨ c ∉ acidRowColumns)))) ∧
    (conjunctSlots.flatten = [] →
      (orcSetFillColumns enableLazyMat conjunctSlots acidMode acidRowColumns
          readTableColumns partitionCols missingCols).predicateColumns = [] ∧
      (orcSetFillColumns enableLazyMat conjunctSlots acidMode acidRowColumns
          readTableColumns partitionCols missingCols).lazyReadColumns = []) ∧
    (∀ c ∈ partitionCols,
      (c ∈ (orcSetFillColumns enableLazyMat conjunctSlots acidMode acidRowColumns
          readTableColumns partitionCols missingCols).predicatePartitionColumns ↔
        c ∈ conjunctSlots.flatten) ∧
      ((orcSetFillColumns enableLazyMat conjunctSlots acidMode acidRowColumns
          readTableColumns partitionCols missingCols).canLazyRead = true →
        (c ∈ (orcSetFillColumns enableLazyMat conjunctSlots acidMode acidRowColumns
          readTableColumns partitionCols missingCols).partitionColumns ↔
          c ∉ conjunctSlots.flatten)) ∧
      ((orcSetFillColumns enableLazyMat conjunctSlots acidMode acidRowColumns
          readTableColumns partitionCols missingCols).canLazyRead = false →
        c ∈ (orcSetFillColumns enableLazyMat conjunctSlots acidMode acidRowColumns
          readTableColumns partitionCols missingCols).partitionColumns)) ∧
    (∀ c ∈ missingCols,
      (c ∈ (orcSetFillColumns enableLazyMat conjunctSlots acidMode acidRowColumns
          readTableColumns partitionCols missingCols).predicateMissingColumns ↔
        c ∈ conjunctSlots.flatten) ∧
      ((orcSetFillColumns enableLazyMat conjunctSlots acidMode acidRowColumns
          readTableColumns partitionCols missingCols).canLazyRead = true →
        (c ∈ (orcSetFillColumns enableLazyMat conjunctSlots acidMode acidRowColumns
          readTableColumns partitionCols missingCols).missingColumns ↔
          c ∉ conjunctSlots.flatten)) ∧
      ((orcSetFillColumns enableLazyMat conjunctSlots acidMode acidRowColumns
          readTableColumns partitionCols missingCols).canLazyRead = false →
        c ∈ (orcSetFillColumns enableLazyMat conjunctSlots acidMode acidRowColumns
          readTableColumns partitionCols missingCols).missingColumns)) := by
    simp only [orcSetFillColumns, orcFillReadColumns_eq]
    by_cases hq : conjunctSlots.flatten.isEmpty
    · have hq0 : conjunctSlots.flatten = [] := List.isEmpty_iff.mp hq
      simp only [hq0]
      refine ⟨?_, ?_, ?_, ?_, ?_⟩
      · intro c hc
        simp at hc
      · intro hne
        exact absurd rfl hne
      · intro _
        simp
      · intro c hc
        refine ⟨by simp, ?_, ?_⟩ <;> intro h <;> simp_all
      · intro c hc
        refine ⟨by simp, ?_, ?_⟩ <;> intro h <;> simp_all
    · have hqe : conjunctSlots.flatten.isEmpty = false := eq_false_of_ne_true hq
      have hcse : conjunctSlots.isEmpty = false := by
        rw [List.isEmpty_eq_false]
        intro h0
        rw [h0] at hq
        simp at hq
      simp only [hqe, hcse, Bool.false_eq_true, if_false]
      refine ⟨?_, ?_, ?_, ?_, ?_⟩
      · intro c hc hc2
        rw [List.mem_filter] at hc hc2
        have h1 := hc.2
        have h2 := hc2.2
        rw [Bool.and_eq_true] at h2
        have h3 := h2.1
        rw [Bool.not_eq_true'] at h3
        rw [h1] at h3
        simp at h3
      · intro _ c hcr
        constructor
        · rw [List.mem_filter]
          constructor
          · rintro ⟨_, h⟩
            simpa using h
          · intro h
            exact ⟨hcr, by simpa using h⟩
        · rw [List.mem_filter]
          constructor
          · rintro ⟨_, h⟩
            rw [Bool.and_eq_true] at h
            refine ⟨by simpa using h.1, ?_⟩
            have h2 := h.2
            rw [Bool.or_eq_true] at h2
            rcases h2 with h2 | h2
            · exact Or.inl (by simpa using h2)
            · exact Or.inr (by simpa using h2)
          · rintro ⟨h1, h2⟩
            refine ⟨hcr, ?_⟩
            rw [Bool.and_eq_true]
            refine ⟨by simpa using h1, ?_⟩
            rw [Bool.or_eq_true]
            rcases h2 with h2 | h2
            · exact Or.inl (by simpa using h2)
            · exact Or.inr (by simpa using h2)
      · intro h0
        rw [h0] at hqe
        simp at hqe
      · intro c hcp
        refine ⟨?_, ?_, ?_⟩
        · rw [List.mem_filter]
          constructor
          · rintro ⟨_, h⟩
            simpa using h
          · intro h
            exact ⟨hcp, by simpa using h⟩
        · intro hlazy
          rw [if_pos hlazy, List.mem_filter]
          constructor
          · rintro ⟨_, h⟩
            simpa using h
          · intro h
            exact ⟨hcp, by simpa using h⟩
        · intro hlazy
          rw [if_neg (by rw [hlazy]; exact Bool.false_ne_true)]
          rw [List.mem_append, List.mem_filter, List.mem_filter]
          by_cases hcpred : c ∈ conjunctSlots.flatten
          · exact Or.inr ⟨hcp, by simpa using hcpred⟩
          · exact Or.inl ⟨hcp, by simpa using hcpred⟩
      · intro c hcm
        refine ⟨?_, ?_, ?_⟩
        · rw [List.mem_filter]
          constructor
          · rintro ⟨_, h⟩
            simpa using h
          · intro h
            exact ⟨hcm, by simpa using h⟩
        · intro hlazy
          rw [if_pos hlazy, List.mem_filter]
          constructor
          · rintro ⟨_, h⟩
            simpa using h
          · intro h
            exact ⟨hcm, by simpa using h⟩
        · intro hlazy
          rw [if_neg (by rw [hlazy]; exact Bool.false_ne_true)]
          rw [List.mem_append, List.mem_filter, List.mem_filter]
          by_cases hcpred : c ∈ conjunctSlots.flatten
          · exact Or.inr ⟨hcm, by simpa using hcpred⟩
          · exact Or.inl ⟨hcm, by simpa using hcpred⟩
  exact ⟨hparquet.1, hparquet.2.1, hparquet.2.2.1, hparquet.2.2.2.1,
    hparquet.2.2.2.2, horc.1, horc.2.1, horc.2.2.1, horc.2.2.2.1,
    horc.2.2.2.2⟩

/-- C5, witness: with a non-empty predicate map, a read column referenced by
a conjunct lands in the predicate list. -/
theorem c5_witness :
    "a" ∈ (parquetSetFillColumns true ["a", "b"] ["a"] [] []).predicateColumns := by
  have h := (c5_column_partition true ["a", "b"] ["a"] [] [] [] false []).2.1
    (by decide) "a" (by decide)
  exact h.1.mpr (by decide)

/-! ## C6 -/

/-- C6: evaluating the conjuncts once over the decoded dictionary values, an
empty surviving-code set filters the whole stripe without any row decode; a
single surviving code `c` rewrites the conjunct to the integer equality
`code = c`; two or more surviving codes rewrite it to an integer membership
test over exactly the surviving code list. -/
theorem c6_dict_filter_rewrite (dictValues : List String)
    (evalConjuncts : String → Bool) :
    (survivingDictCodes dictValues evalConjuncts = [] →
      onStringDictsLoaded dictValues evalConjuncts = .stripeFiltered) ∧
    (∀ c, survivingDictCodes dictValues evalConjuncts = [c] →
      onStringDictsLoaded dictValues evalConjuncts = .rewritten (.eqCode c)) ∧
    (2 ≤ (survivingDictCodes dictValues evalConjuncts).length →
      onStringDictsLoaded dictValues evalConjuncts =
        .rewritten (.inCodeList (survivingDictCodes dictValues evalConjuncts))) := by
  refine ⟨?_, ?_, ?_⟩
  · intro h
    unfold onStringDictsLoaded
    rw [if_pos ((surviving_nil_iff _ _).mp h)]
  · intro c h
    unfold onStringDictsLoaded
    rw [if_neg ?_, h]
    · rfl
    · intro hall
      rw [← surviving_nil_iff] at hall
      rw [h] at hall
      exact List.cons_ne_nil c [] hall
  · intro h
    unfold onStringDictsLoaded
    rw [if_neg ?_]
    · have hlen : ((survivingDictCodes dictValues evalConjuncts).length == 1) = false := by
        rw [beq_eq_false_iff_ne]
        omega
      simp only [hlen, Bool.false_eq_true, if_false]
    · intro hall
      rw [← surviving_nil_iff] at hall
      rw [hall] at h
      simp at h

/-- C6, witness (Scenario C): dictionary `{"a","b","c"}`, predicate
`col = "b"` — code 1 survives alone, the conjunct becomes `code = 1`. -/
theorem c6_witness :
    onStringDictsLoaded ["a", "b", "c"] (fun s => s == "b") =
      .rewritten (.eqCode 1) := by
  exact (c6_dict_filter_rewrite ["a", "b", "c"] (fun s => s == "b")).2.1 1 (by decide)

/-! ## C7 -/

/-- C7: for a sorted position-delete row-id list and a batch covering the
absolute window `[start, start + count)`, the delete filter clears exactly
the positions `r - start` for deleted row ids `r` inside the window and
leaves every other position (and the filter length) unchanged; the window
bounds come from binary search, modelled by `deleteWindow`. -/
theorem c7_position_delete_filter (ids : List Nat) (hs : ids.Sorted (· ≤ ·))
    (start nums : Nat) (hn : 1 ≤ nums) (f : List Bool) (hf : f.length = nums)
    (i : Nat) (hi : i < nums) :
    (executeFilterPositionDeleteRowids ids start nums f).length = nums ∧
    (executeFilterPositionDeleteRowids ids start nums f)[i]? =
      (if start + i ∈ ids then some false else f[i]?) := by
  rw [executeFilterPositionDeleteRowids_eq_setFalseFold]
  constructor
  · rw [setFalseFold_length, hf]
  · rw [setFalseFold_getElem?]
    have hmem : (i ∈ (deleteWindow ids start nums).map (fun r => r - start) ∧
        i < f.length) ↔ start + i ∈ ids := by
      rw [hf]
      constructor
      · rintro ⟨hmap, _⟩
        rw [List.mem_map] at hmap
        obtain ⟨r, hr, hri⟩ := hmap
        rw [mem_deleteWindow_iff ids hs] at hr
        obtain ⟨hrids, hrs, _⟩ := hr
        have : r = start + i := by omega
        rw [← this]
        exact hrids
      · intro h
        refine ⟨?_, hi⟩
        rw [List.mem_map]
        refine ⟨start + i, ?_, by omega⟩
        rw [mem_deleteWindow_iff ids hs]
        exact ⟨h, by omega, by omega⟩
    by_cases h : start + i ∈ ids
    · rw [if_pos (hmem.mpr h), if_pos h]
    · rw [if_neg (fun hc => h (hmem.mp hc)), if_neg h]

/-- C7, witness (Scenario D): deletes `{5, 9}` on a 10-row batch starting at
absolute row 0 clear exactly positions 5 and 9. -/
theorem c7_witness :
    (executeFilterPositionDeleteRowids [5, 9] 0 10 (List.replicate 10 true))[5]? =
        some false ∧
    (executeFilterPositionDeleteRowids [5, 9] 0 10 (List.replicate 10 true))[3]? =
        some true := by
  constructor
  · have h := (c7_position_delete_filter [5, 9] (by decide) 0 10 (by decide)
      (List.replicate 10 true) (by decide) 5 (by decide)).2
    rw [h]
    decide
  · have h := (c7_position_delete_filter [5, 9] (by decide) 0 10 (by decide)
      (List.replicate 10 true) (by decide) 3 (by decide)).2
    rw [h]
    decide

/-! ## C8 -/

/-- C8: applying the same delete-row set twice to the same batch window
yields the same filter vector as applying it once — both for the ordered
position-delete pass and for the ACID transaction/bucket/row-id clearing
pass. -/
theorem c8_delete_filter_idempotent (ids : List Nat) (start nums : Nat)
    (f : List Bool) (d k : List AcidRowID) (g : List Bool) :
    executeFilterPositionDeleteRowids ids start nums
        (executeFilterPositionDeleteRowids ids start nums f) =
      executeFilterPositionDeleteRowids ids start nums f ∧
    clearAcidDeletes d k (clearAcidDeletes d k g) = clearAcidDeletes d k g := by
  constructor
  · rw [executeFilterPositionDeleteRowids_eq_setFalseFold,
      executeFilterPositionDeleteRowids_eq_setFalseFold]
    exact setFalseFold_idem _ _
  · rw [clearAcidDeletes_eq_setFalseFold, clearAcidDeletes_eq_setFalseFold]
    exact setFalseFold_idem _ _

/-! ## C9 -/

/-- C9: if the shared stop flag is observed at entry of
`get_next_block_impl`, or by the blocking read inside `nextBatch` (outside
the count-pushdown path, which performs no blocking read), the call returns
status OK with `eof = true`, zero rows read and an empty output block —
cancellation is reported as end-of-file, never as an error, and never leaves
a partially filled block. -/
theorem c9_cancellation_is_eof (stopAtEntry countAgg : Bool)
    (remainingRows batchSize : Nat) (seekOk canLazyRead stopDuringRead : Bool)
    (batchRows blockRowsAfterFill postFilterRows : Nat)
    (hstop : stopAtEntry = true ∨ (countAgg = false ∧ stopDuringRead = true)) :
    orcGetNextBlockImpl stopAtEntry countAgg remainingRows batchSize seekOk
      canLazyRead stopDuringRead batchRows blockRowsAfterFill postFilterRows =
      ⟨.ok, 0, true, 0⟩ := by
  rcases hstop with h | ⟨h1, h2⟩
  · subst h
    rfl
  · subst h1
    subst h2
    cases stopAtEntry
    · cases seekOk <;> cases canLazyRead <;> rfl
    · rfl

/-- C9, witness: the stop flag raised during the blocking read of a lazy-mode
batch yields `(OK, 0 rows, eof, empty block)`. -/
theorem c9_witness :
    orcGetNextBlockImpl false false 100 32 true true true 7 7 7 =
      ⟨.ok, 0, true, 0⟩ :=
  c9_cancellation_is_eof false false 100 32 true true true 7 7 7 (Or.inr ⟨rfl, rfl⟩)

/-! ## C10 -/

/-- C10: a zero-byte ORC file makes `_create_file_reader` return `EndOfFile`
(whatever the orc library would have done), a parquet file of at most the
4-byte magic returns `EndOfFile` from `_open_file`, and a parquet file with
zero row groups returns `EndOfFile` from `init_reader` — never NotFound,
corruption, or I/O errors. -/
theorem c10_empty_file_is_eof (fileLength fileSize totalGroups : Nat)
    (ev : OrcCreateEvent) (h1 : fileLength = 0) (h2 : fileSize ≤ 4)
    (h3 : totalGroups = 0) :
    orcCreateFileReader false fileLength ev = .endOfFile ∧
    parquetOpenFileFooterCheck false fileSize = .endOfFile ∧
    parquetInitReaderGroupCheck totalGroups = .endOfFile := by
  subst h1
  subst h3
  refine ⟨rfl, ?_, rfl⟩
  unfold parquetOpenFileFooterCheck
  rw [if_neg (by simp), if_pos h2]

/-- C10, witness: all three checks at a completely empty file. -/
theorem c10_witness :
    orcCreateFileReader false 0 .throwOther = .endOfFile ∧
    parquetOpenFileFooterCheck false 0 = .endOfFile ∧
    parquetInitReaderGroupCheck 0 = .endOfFile :=
  c10_empty_file_is_eof 0 0 0 .throwOther rfl (by decide) rfl

end DorisScan
